import Mathlib

/-!
Verification of the stepping Brainfuck interpreter in `src/interpreter.py`
(class `BFInterpreter`).  The Python code is shallowly embedded: the mutable
interpreter object becomes the structure `BF`, each method becomes a Lean
function, and raised exceptions become `Except` results that carry the state
the object was left in when the exception propagated (Python `raise` does not
undo prior attribute assignments).  Python list indexing (including negative
indices) is modelled by `pyIdx`/`pyGet`/`pySet`.
-/

namespace BFI

/-- Python index resolution for a sequence of length `n`: a negative index `i`
addresses position `n + i`; out-of-range indices raise `IndexError` (`none`). -/
def pyIdx (n : Nat) (i : Int) : Option Nat :=
  if 0 ≤ i then
    (if i < (n : Int) then some i.toNat else none)
  else
    (if 0 ≤ (n : Int) + i then some ((n : Int) + i).toNat else none)

/-- Python `l[i]` read. -/
def pyGet (l : List α) (i : Int) : Option α :=
  match pyIdx l.length i with
  | none => none
  | some j => l[j]?

/-- Python `l[i] = v` write. -/
def pySet (l : List α) (i : Int) (v : α) : Option (List α) :=
  match pyIdx l.length i with
  | none => none
  | some j => some (l.set j v)

/-- The keys of the `commands` dispatch dictionary (`BFInterpreter.__init__`). -/
def isCommand (c : Char) : Bool :=
  c = '[' || c = ']' || c = '>' || c = '<' || c = '+' || c = '-' || c = ',' || c = '.'

/-- The `ErrorTypes` enum of `interpreter.py`. -/
inductive ErrorTypes : Type
  | unmatchedCloseParen : ErrorTypes
  | unmatchedOpenParen : ErrorTypes
deriving DecidableEq

/-- Loop of `BFInterpreter.match_brackets`: scan the code keeping a stack of
pending open-bracket positions (head of the list = top of stack = Python
`stack[-1]`) and accumulating the `brackets` dictionary as an association
list.  On end of input with a non-empty stack the source raises
`ProgramSyntaxError(UNMATCHED_OPEN_PAREN, stack[-1])`, i.e. it reports the
TOP of the stack. -/
def matchBracketsAux : List Char → Nat → List Nat → List (Int × Int) →
    Except (ErrorTypes × Nat) (List (Int × Int))
  | [], _, stack, acc =>
      match stack with
      | [] => .ok acc
      | top :: _ => .error (.unmatchedOpenParen, top)
  | c :: rest, i, stack, acc =>
      if c = '[' then matchBracketsAux rest (i + 1) (i :: stack) acc
      else if c = ']' then
        match stack with
        | [] => .error (.unmatchedCloseParen, i)
        | m :: stack' =>
            matchBracketsAux rest (i + 1) stack'
              (acc ++ [((m : Int), (i : Int)), ((i : Int), (m : Int))])
      else matchBracketsAux rest (i + 1) stack acc

/-- `BFInterpreter.match_brackets`. -/
def matchBrackets (code : List Char) : Except (ErrorTypes × Nat) (List (Int × Int)) :=
  matchBracketsAux code 0 [] []

/-- Python dict lookup on the association list produced by `matchBrackets`
(keys are inserted at most once, so first-match lookup is dict lookup). -/
def dictLookup : List (Int × Int) → Int → Option Int
  | [], _ => none
  | (k, w) :: rest, i => if k = i then some w else dictLookup rest i

/-- Exceptions that can propagate out of `step`/`back`:
the three `InterpreterError` subclasses actually raised at run time, plus the
Python built-in exceptions reachable in principle (`IndexError` from list
indexing, `KeyError` from dict lookup). -/
inductive StepErr : Type
  | executionEnded : StepErr
  | noPreviousExecution : StepErr
  | noInput : StepErr
  | indexError : StepErr
  | keyError : StepErr
deriving DecidableEq

/-- The mutable state of a `BFInterpreter` object.  `inputs` models the
injected `input_func`: each call consumes the head of the list, and an
empty list (or a `none` head) models the provider returning a falsy/empty
string, i.e. "no input available".  Input characters are modelled by their
`ord` value. -/
structure BF : Type where
  code : List Char
  brackets : List (Int × Int)
  tape : List Nat
  tape_pointer : Int
  code_pointer : Int
  output : List Nat
  instruction_count : Int
  past : List (Int × Int × Nat × List Nat)
  maxlen : Nat
  inputs : List (Option Nat)
deriving DecidableEq

/-- `collections.deque(maxlen=m).append`: the new element goes to the front
(we keep the most recent entry at the head), and when the deque is full the
oldest entry (tail) is silently evicted. -/
def dequeAppend (maxlen : Nat) (x : α) (q : List α) : List α :=
  if maxlen = 0 then [] else x :: q.take (maxlen - 1)

/-- One call of the injected `input_func`. -/
def nextInput : List (Option Nat) → Option Nat × List (Option Nat)
  | [] => (none, [])
  | x :: rest => (x, rest)

/-- `BFInterpreter.back`: pop the most recent history entry (raising
`NoPreviousExecutionError` on an empty deque, with nothing mutated), restore
`code_pointer`, `tape_pointer`, `output`, write the saved cell value back at
the restored tape pointer, and decrement `instruction_count`. -/
def back (s : BF) : Except (StepErr × BF) (BF × Int) :=
  match s.past with
  | [] => .error (.noPreviousExecution, s)
  | (cp, tp, v, out) :: rest =>
    let s1 : BF := { s with code_pointer := cp, tape_pointer := tp,
                            output := out, past := rest }
    match pySet s1.tape tp v with
    | none => .error (.indexError, s1)
    | some t =>
      .ok ({ s1 with tape := t, instruction_count := s1.instruction_count - 1 }, cp)

/-- `BFInterpreter.open_loop`. -/
def openLoop (s : BF) : Except (StepErr × BF) BF :=
  match pyGet s.tape s.tape_pointer with
  | none => .error (.indexError, s)
  | some v =>
    if v = 0 then
      match dictLookup s.brackets s.code_pointer with
      | none => .error (.keyError, s)
      | some j => .ok { s with code_pointer := j }
    else .ok s

/-- `BFInterpreter.close_loop`. -/
def closeLoop (s : BF) : Except (StepErr × BF) BF :=
  match pyGet s.tape s.tape_pointer with
  | none => .error (.indexError, s)
  | some v =>
    if v ≠ 0 then
      match dictLookup s.brackets s.code_pointer with
      | none => .error (.keyError, s)
      | some j => .ok { s with code_pointer := j }
    else .ok s

/-- `BFInterpreter.increment_pointer`: move right, appending a single zero
cell when the pointer reaches the tape length. -/
def incrementPointer (s : BF) : BF :=
  let tp := s.tape_pointer + 1
  if (s.tape.length : Int) ≤ tp then
    { s with tape_pointer := tp, tape := s.tape ++ [0] }
  else
    { s with tape_pointer := tp }

/-- `BFInterpreter.decrement_pointer`: no lower bound check whatsoever. -/
def decrementPointer (s : BF) : BF :=
  { s with tape_pointer := s.tape_pointer - 1 }

/-- The value written by `increment_cell`. -/
def incCellVal (v : Nat) : Nat := (v + 1) % 256

/-- The value written by `decrement_cell` (Python `(v - 1) % 256` on ints,
which is non-negative for modulus 256). -/
def decCellVal (v : Nat) : Nat := (((v : Int) - 1) % 256).toNat

/-- `BFInterpreter.increment_cell`. -/
def incrementCell (s : BF) : Except (StepErr × BF) BF :=
  match pyGet s.tape s.tape_pointer with
  | none => .error (.indexError, s)
  | some v =>
    match pySet s.tape s.tape_pointer (incCellVal v) with
    | none => .error (.indexError, s)
    | some t => .ok { s with tape := t }

/-- `BFInterpreter.decrement_cell`. -/
def decrementCell (s : BF) : Except (StepErr × BF) BF :=
  match pyGet s.tape s.tape_pointer with
  | none => .error (.indexError, s)
  | some v =>
    match pySet s.tape s.tape_pointer (decCellVal v) with
    | none => .error (.indexError, s)
    | some t => .ok { s with tape := t }

/-- `BFInterpreter.accept_input`: poll the provider; on a value, write
`ord(value) % 256` into the current cell; on no value, call `back()` (the
attempted rollback) and raise `NoInputError`.  Note that `back()` decrements
`instruction_count` even though `step` had not yet incremented it. -/
def acceptInput (s : BF) : Except (StepErr × BF) BF :=
  match nextInput s.inputs with
  | (some n, rest) =>
    match pySet s.tape s.tape_pointer (n % 256) with
    | none => .error (.indexError, { s with inputs := rest })
    | some t => .ok { s with inputs := rest, tape := t }
  | (none, rest) =>
    match back { s with inputs := rest } with
    | .error es => .error es
    | .ok (s', _) => .error (.noInput, s')

/-- `BFInterpreter.add_output`: append `chr(current_cell)` to the output. -/
def addOutput (s : BF) : Except (StepErr × BF) BF :=
  match pyGet s.tape s.tape_pointer with
  | none => .error (.indexError, s)
  | some v => .ok { s with output := s.output ++ [v] }

/-- The `self.commands[...]()` dispatch of `step` over the 8 command
characters (a non-command character would be a `KeyError`, but `step` only
dispatches characters that passed the `in self.commands` scan). -/
def execCommand (c : Char) (s : BF) : Except (StepErr × BF) BF :=
  if c = '[' then openLoop s
  else if c = ']' then closeLoop s
  else if c = '>' then .ok (incrementPointer s)
  else if c = '<' then .ok (decrementPointer s)
  else if c = '+' then incrementCell s
  else if c = '-' then decrementCell s
  else if c = ',' then acceptInput s
  else if c = '.' then addOutput s
  else .error (.keyError, s)

/-- The `while self.current_instruction not in self.commands` scan of `step`,
starting at `cp`: advance until a command character is found (`.ok (cp, c)`)
or the read raises `IndexError` (`.error cp`, the position of the failed
read).  Structural recursion on a fuel argument; the scan advances by one
each iteration and fails as soon as the index leaves the Python-valid range,
so any fuel of at least `code.length + 1 - cp` reproduces the loop exactly
(see `scanAux_stable`). -/
def scanAux : Nat → List Char → Int → Except Int (Int × Char)
  | 0, _, cp => .error cp
  | fuel + 1, code, cp =>
    match pyGet code cp with
    | none => .error cp
    | some c => if isCommand c then .ok (cp, c) else scanAux fuel code (cp + 1)

/-- The command scan of `step` with always-sufficient fuel. -/
def scanCmd (code : List Char) (cp : Int) : Except Int (Int × Char) :=
  scanAux (2 * code.length + 2) code cp

/-- `BFInterpreter.step`.  Returns the position of the instruction just
executed; errors carry the state the object was left in when the exception
escaped (Python mutations before the `raise` are not undone). -/
def step (s : BF) : Except (StepErr × BF) (BF × Int) :=
  if (s.code.length : Int) ≤ s.code_pointer + 1 then .error (.executionEnded, s)
  else
    match pyGet s.tape s.tape_pointer with
    | none => .error (.indexError, s)
    | some v =>
      let s1 : BF :=
        { s with past := dequeAppend s.maxlen
                  (s.code_pointer, s.tape_pointer, v, s.output) s.past }
      match scanCmd s1.code (s1.code_pointer + 1) with
      | .error q => .error (.executionEnded, { s1 with code_pointer := q - 1 })
      | .ok (cp, c) =>
        let s2 : BF := { s1 with code_pointer := cp }
        match execCommand c s2 with
        | .error es => .error es
        | .ok s3 => .ok ({ s3 with instruction_count := s3.instruction_count + 1 }, cp)

/-- `BFInterpreter.__init__`: run the validator, then build the fresh state
(tape `[0]`, tape pointer `0`, code pointer `-1`, empty output/history,
instruction count `0`). -/
def init (code : List Char) (inputs : List (Option Nat)) (maxlen : Nat) :
    Except (ErrorTypes × Nat) BF :=
  match matchBrackets code with
  | .error e => .error e
  | .ok b =>
    .ok { code := code, brackets := b, tape := [0], tape_pointer := 0,
          code_pointer := -1, output := [], instruction_count := 0,
          past := [], maxlen := maxlen, inputs := inputs }

/-- `n` consecutive `step()` calls, stopping at the first failure. -/
def stepN : Nat → BF → Except (StepErr × BF) BF
  | 0, s => .ok s
  | n + 1, s =>
    match step s with
    | .error es => .error es
    | .ok (s', _) => stepN n s'

/-- `n` consecutive `back()` calls, stopping at the first failure. -/
def backN : Nat → BF → Except (StepErr × BF) BF
  | 0, s => .ok s
  | n + 1, s =>
    match back s with
    | .error es => .error es
    | .ok (s', _) => backN n s'

/-- The stack of pending unmatched open-bracket positions left by the
validator scan (head = top of stack = most recent); `none` if some `]`
underflows the stack.  Spec-level restatement of the scan used to phrase
which position the validator reports. -/
def pendingOpens : List Char → Nat → List Nat → Option (List Nat)
  | [], _, stack => some stack
  | c :: rest, i, stack =>
    if c = '[' then pendingOpens rest (i + 1) (i :: stack)
    else if c = ']' then
      match stack with
      | [] => none
      | _ :: stack' => pendingOpens rest (i + 1) stack'
    else pendingOpens rest (i + 1) stack

/-- All tape cells and all saved history cell values are bytes. -/
def cellsOk (s : BF) : Prop :=
  (∀ c ∈ s.tape, c < 256) ∧ (∀ e ∈ s.past, e.2.2.1 < 256)

/-- One direction of jump-table soundness: the entry relates an open and a
close bracket of the code. -/
def entryOk (code : List Char) (e : Int × Int) : Prop :=
  ∃ m n : Nat, e.1 = (m : Int) ∧ e.2 = (n : Int) ∧
    ((code[m]? = some '[' ∧ code[n]? = some ']' ∧ m < n) ∨
     (code[m]? = some ']' ∧ code[n]? = some '[' ∧ n < m))

/-- The saved tape pointer of every history entry is a Python-valid index of the
current tape, and the history respects its capacity.  Holds for every state
reachable from `init` (the tape never shrinks). -/
def histInv (s : BF) : Prop :=
  (∀ e ∈ s.past, (pyIdx s.tape.length e.2.1).isSome) ∧ s.past.length ≤ s.maxlen

/- Concrete states used by the witness and counterexample theorems below.
Each is the exact value produced by `init` / `step` / `back` on the stated
concrete program. -/

/-- Fresh interpreter on program `,` with an input provider that yields
nothing (default history capacity). -/
def c1s0 : BF :=
  { code := [','], brackets := [], tape := [0], tape_pointer := 0,
    code_pointer := -1, output := [], instruction_count := 0, past := [],
    maxlen := 1000000, inputs := [] }

/-- State left behind by the failed `,` step on `c1s0`: everything restored
except `instruction_count`, which the rollback drove to `-1`. -/
def c1s1 : BF := { c1s0 with instruction_count := -1 }

/-- Fresh interpreter on program `>`. -/
def c2s0 : BF :=
  { code := ['>'], brackets := [], tape := [0], tape_pointer := 0,
    code_pointer := -1, output := [], instruction_count := 0, past := [],
    maxlen := 1000000, inputs := [] }

/-- `c2s0` after one `step()` (tape grew to `[0, 0]`). -/
def c2s1 : BF :=
  { c2s0 with
    tape := [0, 0], tape_pointer := 1, code_pointer := 0,
    instruction_count := 1, past := [(-1, 0, 0, [])] }

/-- `c2s1` after `back()`: everything restored except the tape length. -/
def c2s2 : BF := { c2s0 with tape := [0, 0] }

/-- Fresh interpreter on program `+` (used by the C2 witness). -/
def w2s0 : BF :=
  { code := ['+'], brackets := [], tape := [0], tape_pointer := 0,
    code_pointer := -1, output := [], instruction_count := 0, past := [],
    maxlen := 10, inputs := [] }

/-- `w2s0` after one `step()`. -/
def w2s1 : BF :=
  { w2s0 with
    tape := [1], code_pointer := 0, instruction_count := 1,
    past := [(-1, 0, 0, [])] }

/-- Fresh interpreter on program `<`. -/
def c4s0 : BF :=
  { code := ['<'], brackets := [], tape := [0], tape_pointer := 0,
    code_pointer := -1, output := [], instruction_count := 0, past := [],
    maxlen := 1000000, inputs := [] }

/-- `c4s0` after stepping the `<`: the tape pointer is silently `-1`. -/
def c4s1 : BF :=
  { c4s0 with
    tape_pointer := -1, code_pointer := 0, instruction_count := 1,
    past := [(-1, 0, 0, [])] }

/-- Fresh interpreter on the valid program `[]`. -/
def c5s0 : BF :=
  { code := ['[', ']'], brackets := [(0, 1), (1, 0)], tape := [0],
    tape_pointer := 0, code_pointer := -1, output := [],
    instruction_count := 0, past := [], maxlen := 1000000, inputs := [] }

/-- `c5s0` after one `step()`: the zero cell made `[` jump to its `]`. -/
def c5s1 : BF :=
  { c5s0 with
    code_pointer := 1, instruction_count := 1,
    past := [(-1, 0, 0, [])] }

/-- Fresh interpreter on program `+++` with history capacity 2. -/
def c6s0 : BF :=
  { code := ['+', '+', '+'], brackets := [], tape := [0], tape_pointer := 0,
    code_pointer := -1, output := [], instruction_count := 0, past := [],
    maxlen := 2, inputs := [] }

/-- `c6s0` after three `step()` calls: the oldest history entry was evicted. -/
def c6s3 : BF :=
  { c6s0 with
    tape := [3], code_pointer := 2, instruction_count := 3,
    past := [(1, 0, 2, []), (0, 0, 1, [])] }

/-- Fresh interpreter on program `>` (used by the C7 witness). -/
def c7s0 : BF :=
  { code := ['>'], brackets := [], tape := [0], tape_pointer := 0,
    code_pointer := -1, output := [], instruction_count := 0, past := [],
    maxlen := 10, inputs := [] }

/-- `c7s0` after one `step()`. -/
def c7s1 : BF :=
  { c7s0 with
    tape := [0, 0], tape_pointer := 1, code_pointer := 0,
    instruction_count := 1, past := [(-1, 0, 0, [])] }

/-- `c7s1` after `back()`. -/
def c7s2 : BF := { c7s0 with tape := [0, 0] }

/-- Fresh interpreter on program `+` (used by the C8 witness). -/
def c8s0 : BF :=
  { code := ['+'], brackets := [], tape := [0], tape_pointer := 0,
    code_pointer := -1, output := [], instruction_count := 0, past := [],
    maxlen := 5, inputs := [] }

/-- `c8s0` after one `step()`. -/
def c8s1 : BF :=
  { c8s0 with
    tape := [1], code_pointer := 0, instruction_count := 1,
    past := [(-1, 0, 0, [])] }

/-- A state whose instruction pointer sits on the last index of the code. -/
def c9s : BF :=
  { code := ['+'], brackets := [], tape := [0], tape_pointer := 0,
    code_pointer := 0, output := [], instruction_count := 0, past := [],
    maxlen := 5, inputs := [] }

/-- Fresh interpreter on the comment-only program `ab`, capacity 1. -/
def c10s0 : BF :=
  { code := ['a', 'b'], brackets := [], tape := [0], tape_pointer := 0,
    code_pointer := -1, output := [], instruction_count := 0, past := [],
    maxlen := 1, inputs := [] }

/-! Basic facts about the Python indexing model. -/

theorem pyIdx_eq_some_iff {n : Nat} {i : Int} {j : Nat} :
    pyIdx n i = some j ↔
      ((0 ≤ i ∧ i = (j : Int) ∧ j < n) ∨
       (i < 0 ∧ (n : Int) + i = (j : Int) ∧ j < n)) := by
  unfold pyIdx
  split <;> split <;> simp <;> omega

theorem pyIdx_isSome_iff {n : Nat} {i : Int} :
    (pyIdx n i).isSome ↔ ((0 ≤ i ∧ i < (n : Int)) ∨ (i < 0 ∧ 0 ≤ (n : Int) + i)) := by
  unfold pyIdx
  split <;> split <;> simp <;> omega

theorem pyIdx_isSome_mono {n m : Nat} {i : Int} (hnm : n ≤ m)
    (h : (pyIdx n i).isSome) : (pyIdx m i).isSome := by
  rw [pyIdx_isSome_iff] at h ⊢
  omega

theorem pyIdx_lt {n : Nat} {i : Int} {j : Nat} (h : pyIdx n i = some j) :
    j < n ∧ i < (n : Int) := by
  rw [pyIdx_eq_some_iff] at h
  omega

theorem getElemOpt_of_lt : ∀ (l : List α) (j : Nat), j < l.length → ∃ v, l[j]? = some v
  | a :: l, 0, _ => ⟨a, by simp⟩
  | a :: l, j + 1, h => by
    simpa using getElemOpt_of_lt l j (by simpa using Nat.lt_of_succ_lt_succ h)
  | [], j, h => by simp at h

theorem mem_of_getElemOpt : ∀ (l : List α) (j : Nat) (v : α), l[j]? = some v → v ∈ l
  | a :: l, 0, v, h => by
    simp at h
    simp [h]
  | a :: l, j + 1, v, h => by
    simp at h
    exact List.mem_cons_of_mem a (mem_of_getElemOpt l j v h)
  | [], j, v, h => by simp at h

theorem set_own : ∀ (l : List α) (j : Nat) (v : α), l[j]? = some v → l.set j v = l
  | a :: l, 0, v, h => by
    simp at h
    simp [h]
  | a :: l, j + 1, v, h => by
    simp at h
    simp [set_own l j v h]
  | [], j, v, h => by simp at h

theorem set_append_of_lt :
    ∀ (l l2 : List α) (j : Nat) (v : α), j < l.length →
      (l ++ l2).set j v = l.set j v ++ l2
  | a :: l, l2, 0, v, _ => rfl
  | a :: l, l2, j + 1, v, h => by
    simp only [List.cons_append, List.set_cons_succ]
    rw [set_append_of_lt l l2 j v (by simpa using Nat.lt_of_succ_lt_succ h)]
  | [], l2, j, v, h => by simp at h

theorem getElemOpt_append_cons :
    ∀ (pre : List α) (c : α) (rest : List α), (pre ++ c :: rest)[pre.length]? = some c
  | [], c, rest => by simp
  | a :: pre, c, rest => by
    simpa using getElemOpt_append_cons pre c rest

theorem pyGet_some_elim {l : List α} {i : Int} {v : α} (h : pyGet l i = some v) :
    ∃ j : Nat, pyIdx l.length i = some j ∧ j < l.length ∧ l[j]? = some v := by
  unfold pyGet at h
  cases hidx : pyIdx l.length i with
  | none => rw [hidx] at h; cases h
  | some j =>
    rw [hidx] at h
    exact ⟨j, rfl, (pyIdx_lt hidx).1, h⟩

theorem pyGet_lt {l : List α} {i : Int} {v : α} (h : pyGet l i = some v) :
    i < (l.length : Int) := by
  obtain ⟨j, hidx, _, _⟩ := pyGet_some_elim h
  exact (pyIdx_lt hidx).2

theorem pyGet_mem {l : List α} {i : Int} {v : α} (h : pyGet l i = some v) : v ∈ l := by
  obtain ⟨j, _, _, hget⟩ := pyGet_some_elim h
  exact mem_of_getElemOpt l j v hget

theorem pyGet_total {l : List α} {i : Int} (h0 : 0 ≤ i) (h1 : i < (l.length : Int)) :
    ∃ v, pyGet l i = some v := by
  have hidx : pyIdx l.length i = some i.toNat := by
    rw [pyIdx_eq_some_iff]
    left
    omega
  obtain ⟨v, hv⟩ := getElemOpt_of_lt l i.toNat (by omega)
  refine ⟨v, ?_⟩
  unfold pyGet
  rw [hidx]
  exact hv

theorem pyGet_none_of_ge {l : List α} {i : Int} (h : (l.length : Int) ≤ i) :
    pyGet l i = none := by
  have hidx : pyIdx l.length i = none := by
    unfold pyIdx
    rw [if_pos (by omega), if_neg (by omega)]
  unfold pyGet
  rw [hidx]

theorem pySet_eq {l : List α} {i : Int} {j : Nat} (hidx : pyIdx l.length i = some j)
    (v : α) : pySet l i v = some (l.set j v) := by
  unfold pySet
  rw [hidx]

theorem pySet_self {l : List α} {i : Int} {v : α} (h : pyGet l i = some v) :
    pySet l i v = some l := by
  obtain ⟨j, hidx, _, hget⟩ := pyGet_some_elim h
  rw [pySet_eq hidx, set_own l j v hget]

theorem pySet_isSome {l : List α} {i : Int} (h : (pyIdx l.length i).isSome) (v : α) :
    ∃ l2, pySet l i v = some l2 ∧ l2.length = l.length := by
  obtain ⟨j, hidx⟩ := Option.isSome_iff_exists.mp h
  exact ⟨l.set j v, pySet_eq hidx v, by simp⟩

theorem mem_dequeAppend {maxlen : Nat} {x e : α} {q : List α}
    (h : e ∈ dequeAppend maxlen x q) : e = x ∨ e ∈ q := by
  unfold dequeAppend at h
  split at h
  · simp at h
  · rw [List.mem_cons] at h
    rcases h with h | h
    · exact Or.inl h
    · exact Or.inr (List.take_subset _ _ h)

theorem dequeAppend_length (maxlen : Nat) (x : α) (q : List α) :
    (dequeAppend maxlen x q).length = min (q.length + 1) maxlen := by
  unfold dequeAppend
  split
  · simp
    omega
  · simp [List.length_take]
    omega

theorem dequeAppend_cons {maxlen : Nat} (h : 1 ≤ maxlen) (x : α) (q : List α) :
    dequeAppend maxlen x q = x :: q.take (maxlen - 1) := by
  unfold dequeAppend
  rw [if_neg (by omega)]

/-! The command scan. -/

theorem scanAux_ok {f : Nat} {code : List Char} {cp q : Int} {c : Char}
    (h : scanAux f code cp = .ok (q, c)) :
    pyGet code q = some c ∧ isCommand c = true := by
  induction f generalizing cp with
  | zero => cases h
  | succ f ih =>
    unfold scanAux at h
    cases hg : pyGet code cp with
    | none =>
      rw [hg] at h
      cases h
    | some c' =>
      cases hc : isCommand c' with
      | true =>
        simp only [hg, hc, if_true] at h
        cases h
        exact ⟨hg, hc⟩
      | false =>
        simp only [hg, hc, Bool.false_eq_true, if_false] at h
        exact ih h

theorem scanCmd_ok {code : List Char} {cp q : Int} {c : Char}
    (h : scanCmd code cp = .ok (q, c)) :
    pyGet code q = some c ∧ isCommand c = true :=
  scanAux_ok h

/-- The fuel argument of `scanAux` is irrelevant once it exceeds the number
of cells the scan can still visit: the scan is exactly the source loop. -/
theorem scanAux_stable {code : List Char} :
    ∀ (f g : Nat) (cp : Int), ((code.length : Int) + 1 - cp).toNat ≤ f → f ≤ g →
      scanAux f code cp = scanAux g code cp := by
  intro f
  induction f with
  | zero =>
    intro g cp hb _
    have hnone : pyGet code cp = none := pyGet_none_of_ge (by omega)
    cases g with
    | zero => rfl
    | succ g =>
      show _ = scanAux (g + 1) code cp
      unfold scanAux
      rw [hnone]
  | succ f ih =>
    intro g cp hb hfg
    cases g with
    | zero => omega
    | succ g =>
      show scanAux (f + 1) code cp = scanAux (g + 1) code cp
      unfold scanAux
      cases hg : pyGet code cp with
      | none => rfl
      | some c =>
        cases hc : isCommand c with
        | true => simp only [hc, if_true]
        | false =>
          simp only [hc, Bool.false_eq_true, if_false]
          have hlt : cp < (code.length : Int) := pyGet_lt hg
          exact ih g (cp + 1) (by omega) (by omega)

theorem scanAux_all_comment {code : List Char}
    (hcmd : ∀ c ∈ code, isCommand c = false) :
    ∀ (fuel : Nat) (cp : Int), 0 ≤ cp → cp ≤ (code.length : Int) →
      (code.length : Int) - cp < fuel →
      scanAux fuel code cp = .error (code.length : Int) := by
  intro fuel
  induction fuel with
  | zero => intro cp h0 h1 h2; omega
  | succ f ih =>
    intro cp h0 h1 h2
    unfold scanAux
    by_cases hcp : cp = (code.length : Int)
    · subst hcp
      rw [pyGet_none_of_ge le_rfl]
    · have hlt : cp < (code.length : Int) := by omega
      obtain ⟨c, hc⟩ := pyGet_total h0 hlt
      rw [hc]
      simp only [hcmd c (pyGet_mem hc), Bool.false_eq_true, if_false]
      rw [ih (cp + 1) (by omega) (by omega) (by omega)]

theorem scanCmd_all_comment {code : List Char}
    (hcmd : ∀ c ∈ code, isCommand c = false) :
    scanCmd code 0 = .error (code.length : Int) :=
  scanAux_all_comment hcmd _ 0 le_rfl (by omega) (by omega)

/-! Shapes of the successful and failed outcomes of each instruction
handler, read off the source of `interpreter.py`. -/

theorem openLoop_ok_shape {s t' : BF} {v : Nat}
    (hv : pyGet s.tape s.tape_pointer = some v) (h : openLoop s = .ok t') :
    (t' = s ∧ v ≠ 0) ∨
    (∃ j, dictLookup s.brackets s.code_pointer = some j ∧
      t' = { s with code_pointer := j } ∧ v = 0) := by
  unfold openLoop at h
  simp only [hv] at h
  by_cases hz : v = 0
  · rw [if_pos hz] at h
    cases hd : dictLookup s.brackets s.code_pointer with
    | none => simp only [hd] at h; cases h
    | some j =>
      simp only [hd] at h
      cases h
      exact Or.inr ⟨j, rfl, rfl, hz⟩
  · rw [if_neg hz] at h
    cases h
    exact Or.inl ⟨rfl, hz⟩

theorem closeLoop_ok_shape {s t' : BF} {v : Nat}
    (hv : pyGet s.tape s.tape_pointer = some v) (h : closeLoop s = .ok t') :
    (t' = s ∧ v = 0) ∨
    (∃ j, dictLookup s.brackets s.code_pointer = some j ∧
      t' = { s with code_pointer := j } ∧ v ≠ 0) := by
  unfold closeLoop at h
  simp only [hv] at h
  by_cases hz : v = 0
  · rw [if_neg (by simpa using hz)] at h
    cases h
    exact Or.inl ⟨rfl, hz⟩
  · rw [if_pos (by simpa using hz)] at h
    cases hd : dictLookup s.brackets s.code_pointer with
    | none => simp only [hd] at h; cases h
    | some j =>
      simp only [hd] at h
      cases h
      exact Or.inr ⟨j, rfl, rfl, hz⟩

theorem incrementCell_ok_shape {s t' : BF} (h : incrementCell s = .ok t') :
    ∃ v j, pyGet s.tape s.tape_pointer = some v ∧
      pyIdx s.tape.length s.tape_pointer = some j ∧ s.tape[j]? = some v ∧
      t' = { s with tape := s.tape.set j (incCellVal v) } := by
  unfold incrementCell at h
  cases hv : pyGet s.tape s.tape_pointer with
  | none => simp only [hv] at h; cases h
  | some v =>
    simp only [hv] at h
    obtain ⟨j, hidx, _, hget⟩ := pyGet_some_elim hv
    simp only [pySet_eq hidx] at h
    cases h
    exact ⟨v, j, rfl, hidx, hget, rfl⟩

theorem decrementCell_ok_shape {s t' : BF} (h : decrementCell s = .ok t') :
    ∃ v j, pyGet s.tape s.tape_pointer = some v ∧
      pyIdx s.tape.length s.tape_pointer = some j ∧ s.tape[j]? = some v ∧
      t' = { s with tape := s.tape.set j (decCellVal v) } := by
  unfold decrementCell at h
  cases hv : pyGet s.tape s.tape_pointer with
  | none => simp only [hv] at h; cases h
  | some v =>
    simp only [hv] at h
    obtain ⟨j, hidx, _, hget⟩ := pyGet_some_elim hv
    simp only [pySet_eq hidx] at h
    cases h
    exact ⟨v, j, rfl, hidx, hget, rfl⟩

theorem acceptInput_ok_shape {s t' : BF} (h : acceptInput s = .ok t') :
    ∃ n rest j, nextInput s.inputs = (some n, rest) ∧
      pyIdx s.tape.length s.tape_pointer = some j ∧
      t' = { s with inputs := rest, tape := s.tape.set j (n % 256) } := by
  unfold acceptInput at h
  rcases hni : nextInput s.inputs with ⟨_ | n, rest⟩
  · simp only [hni] at h
    cases hb : back { s with inputs := rest } with
    | error es => simp only [hb] at h; cases h
    | ok sp =>
      obtain ⟨s', q⟩ := sp
      simp only [hb] at h
      cases h
  · simp only [hni] at h
    cases hs : pySet s.tape s.tape_pointer (n % 256) with
    | none => simp only [hs] at h; cases h
    | some t =>
      simp only [hs] at h
      cases h
      unfold pySet at hs
      cases hidx : pyIdx s.tape.length s.tape_pointer with
      | none => simp only [hidx] at hs; cases hs
      | some j =>
        simp only [hidx, Option.some.injEq] at hs
        subst hs
        exact ⟨n, rest, j, rfl, rfl, rfl⟩

theorem addOutput_ok_shape {s t' : BF} (h : addOutput s = .ok t') :
    ∃ v, pyGet s.tape s.tape_pointer = some v ∧
      t' = { s with output := s.output ++ [v] } := by
  unfold addOutput at h
  cases hv : pyGet s.tape s.tape_pointer with
  | none => simp only [hv] at h; cases h
  | some v =>
    simp only [hv] at h
    cases h
    exact ⟨v, rfl, rfl⟩

theorem back_ok_elim {s s' : BF} {p : Int} (h : back s = .ok (s', p)) :
    ∃ cp tp v out rest j, s.past = (cp, tp, v, out) :: rest ∧ p = cp ∧
      pyIdx s.tape.length tp = some j ∧
      s' = { s with code_pointer := cp, tape_pointer := tp, output := out,
                    past := rest, tape := s.tape.set j v,
                    instruction_count := s.instruction_count - 1 } := by
  unfold back at h
  cases hp : s.past with
  | nil => simp only [hp] at h; cases h
  | cons e rest =>
    obtain ⟨cp, tp, v, out⟩ := e
    simp only [hp] at h
    cases hs : pySet s.tape tp v with
    | none => simp only [hs] at h; cases h
    | some t =>
      simp only [hs] at h
      unfold pySet at hs
      cases hidx : pyIdx s.tape.length tp with
      | none => simp only [hidx] at hs; cases hs
      | some j =>
        simp only [hidx, Option.some.injEq] at hs
        subst hs
        simp only [Except.ok.injEq, Prod.mk.injEq] at h
        exact ⟨cp, tp, v, out, rest, j, rfl, h.2.symm, hidx, h.1.symm⟩

theorem back_err_elim {s s' : BF} {e : StepErr} (h : back s = .error (e, s')) :
    s'.tape = s.tape ∧
    ((e = .noPreviousExecution ∧ s' = s ∧ s.past = []) ∨ e = .indexError) := by
  unfold back at h
  cases hp : s.past with
  | nil =>
    simp only [hp] at h
    cases h
    exact ⟨rfl, Or.inl ⟨rfl, rfl, rfl⟩⟩
  | cons el rest =>
    obtain ⟨cp, tp, v, out⟩ := el
    simp only [hp] at h
    cases hs : pySet s.tape tp v with
    | none =>
      simp only [hs] at h
      cases h
      exact ⟨rfl, Or.inr rfl⟩
    | some t => simp only [hs] at h; cases h

theorem back_ok_len {s s' : BF} {p : Int} (h : back s = .ok (s', p)) :
    s'.tape.length = s.tape.length ∧ s'.past = s.past.tail ∧
    s'.maxlen = s.maxlen := by
  obtain ⟨cp, tp, v, out, rest, j, hp, _, _, rfl⟩ := back_ok_elim h
  refine ⟨by simp, by rw [hp]; rfl, rfl⟩

/-- Frame conditions of a successful dispatch: the handlers never touch the
history, the capacity, the instruction count, the code or the jump table,
and writing the pre-step cell value back at the pre-step tape pointer
recovers the pre-step tape, possibly extended by the single zero cell that
`>` appended. -/
theorem exec_ok_master {c : Char} {t t' : BF} {v : Nat}
    (hv : pyGet t.tape t.tape_pointer = some v)
    (hex : execCommand c t = .ok t') :
    t'.past = t.past ∧ t'.maxlen = t.maxlen ∧
    t'.instruction_count = t.instruction_count ∧
    t'.code = t.code ∧ t'.brackets = t.brackets ∧
    ∃ u, pySet t'.tape t.tape_pointer v = some u ∧
      (u = t.tape ∨ u = t.tape ++ [0]) := by
  unfold execCommand at hex
  split_ifs at hex with h1 h2 h3 h4 h5 h6 h7 h8
  · rcases openLoop_ok_shape hv hex with ⟨rfl, _⟩ | ⟨j, _, rfl, _⟩ <;>
      exact ⟨rfl, rfl, rfl, rfl, rfl, _, pySet_self hv, Or.inl rfl⟩
  · rcases closeLoop_ok_shape hv hex with ⟨rfl, _⟩ | ⟨j, _, rfl, _⟩ <;>
      exact ⟨rfl, rfl, rfl, rfl, rfl, _, pySet_self hv, Or.inl rfl⟩
  · cases hex
    simp only [incrementPointer]
    by_cases hgrow : (t.tape.length : Int) ≤ t.tape_pointer + 1
    · rw [if_pos hgrow]
      refine ⟨rfl, rfl, rfl, rfl, rfl, ?_⟩
      obtain ⟨j, hidx, hjlt, hget⟩ := pyGet_some_elim hv
      rw [pyIdx_eq_some_iff] at hidx
      have hj : (j : Int) = t.tape_pointer ∧ 0 ≤ t.tape_pointer ∧
          j + 1 = t.tape.length := by omega
      have hidx2 : pyIdx (t.tape ++ [0]).length t.tape_pointer = some j := by
        rw [pyIdx_eq_some_iff]
        left
        simp only [List.length_append, List.length_cons, List.length_nil]
        omega
      show ∃ u, pySet (t.tape ++ [0]) t.tape_pointer v = some u ∧
        (u = t.tape ∨ u = t.tape ++ [0])
      rw [pySet_eq hidx2 v]
      refine ⟨_, rfl, Or.inr ?_⟩
      rw [set_append_of_lt _ _ _ _ (by omega), set_own t.tape j v hget]
    · rw [if_neg hgrow]
      exact ⟨rfl, rfl, rfl, rfl, rfl, t.tape, pySet_self hv, Or.inl rfl⟩
  · cases hex
    exact ⟨rfl, rfl, rfl, rfl, rfl, t.tape, pySet_self hv, Or.inl rfl⟩
  · obtain ⟨v', j, hv', hidx, hget, rfl⟩ := incrementCell_ok_shape hex
    cases hv.symm.trans hv'
    refine ⟨rfl, rfl, rfl, rfl, rfl, t.tape, ?_, Or.inl rfl⟩
    have hidx2 : pyIdx (t.tape.set j (incCellVal v)).length t.tape_pointer = some j := by
      rw [List.length_set]
      exact hidx
    show pySet (t.tape.set j (incCellVal v)) t.tape_pointer v = some t.tape
    rw [pySet_eq hidx2 v, List.set_set, set_own t.tape j v hget]
  · obtain ⟨v', j, hv', hidx, hget, rfl⟩ := decrementCell_ok_shape hex
    cases hv.symm.trans hv'
    refine ⟨rfl, rfl, rfl, rfl, rfl, t.tape, ?_, Or.inl rfl⟩
    have hidx2 : pyIdx (t.tape.set j (decCellVal v)).length t.tape_pointer = some j := by
      rw [List.length_set]
      exact hidx
    show pySet (t.tape.set j (decCellVal v)) t.tape_pointer v = some t.tape
    rw [pySet_eq hidx2 v, List.set_set, set_own t.tape j v hget]
  · obtain ⟨n, rest, j, hni, hidx, rfl⟩ := acceptInput_ok_shape hex
    obtain ⟨j', hidx', _, hget'⟩ := pyGet_some_elim hv
    cases hidx.symm.trans hidx'
    refine ⟨rfl, rfl, rfl, rfl, rfl, t.tape, ?_, Or.inl rfl⟩
    have hidx2 : pyIdx (t.tape.set j (n % 256)).length t.tape_pointer = some j := by
      rw [List.length_set]
      exact hidx
    show pySet (t.tape.set j (n % 256)) t.tape_pointer v = some t.tape
    rw [pySet_eq hidx2 v, List.set_set, set_own t.tape j v hget']
  · obtain ⟨v', hv', rfl⟩ := addOutput_ok_shape hex
    exact ⟨rfl, rfl, rfl, rfl, rfl, t.tape, pySet_self hv, Or.inl rfl⟩

/-- Tape evolution of a successful dispatch: the tape keeps its length
except for `>` appending exactly one zero cell when the incremented
pointer equals the length. -/
theorem exec_ok_tape {c : Char} {t t' : BF} {v : Nat}
    (hv : pyGet t.tape t.tape_pointer = some v)
    (hex : execCommand c t = .ok t') :
    (t'.tape.length = t.tape.length ∧
      ¬ (c = '>' ∧ t.tape_pointer + 1 = (t.tape.length : Int))) ∨
    (t'.tape = t.tape ++ [0] ∧ c = '>' ∧
      t.tape_pointer + 1 = (t.tape.length : Int)) := by
  unfold execCommand at hex
  split_ifs at hex with h1 h2 h3 h4 h5 h6 h7 h8
  · rcases openLoop_ok_shape hv hex with ⟨rfl, _⟩ | ⟨j, _, rfl, _⟩ <;>
      exact Or.inl ⟨rfl, fun hcon => by rw [h1] at hcon; exact absurd hcon.1 (by decide)⟩
  · rcases closeLoop_ok_shape hv hex with ⟨rfl, _⟩ | ⟨j, _, rfl, _⟩ <;>
      exact Or.inl ⟨rfl, fun hcon => by rw [h2] at hcon; exact absurd hcon.1 (by decide)⟩
  · cases hex
    simp only [incrementPointer]
    by_cases hgrow : (t.tape.length : Int) ≤ t.tape_pointer + 1
    · rw [if_pos hgrow]
      have hlt : t.tape_pointer < (t.tape.length : Int) := pyGet_lt hv
      exact Or.inr ⟨rfl, h3, by omega⟩
    · rw [if_neg hgrow]
      exact Or.inl ⟨rfl, fun hcon => absurd hcon.2 (by omega)⟩
  · cases hex
    exact Or.inl ⟨rfl, fun hcon => by rw [h4] at hcon; exact absurd hcon.1 (by decide)⟩
  · obtain ⟨v', j, hv', hidx, hget, rfl⟩ := incrementCell_ok_shape hex
    exact Or.inl ⟨by simp, fun hcon => by rw [h5] at hcon; exact absurd hcon.1 (by decide)⟩
  · obtain ⟨v', j, hv', hidx, hget, rfl⟩ := decrementCell_ok_shape hex
    exact Or.inl ⟨by simp, fun hcon => by rw [h6] at hcon; exact absurd hcon.1 (by decide)⟩
  · obtain ⟨n, rest, j, hni, hidx, rfl⟩ := acceptInput_ok_shape hex
    exact Or.inl ⟨by simp, fun hcon => by rw [h7] at hcon; exact absurd hcon.1 (by decide)⟩
  · obtain ⟨v', hv', rfl⟩ := addOutput_ok_shape hex
    exact Or.inl ⟨rfl, fun hcon => by rw [h8] at hcon; exact absurd hcon.1 (by decide)⟩

/-- A failed dispatch never changes the tape length either. -/
theorem exec_err_tape {c : Char} {t t' : BF} {e : StepErr}
    (hex : execCommand c t = .error (e, t')) : t'.tape.length = t.tape.length := by
  unfold execCommand at hex
  split_ifs at hex
  · unfold openLoop at hex
    cases hv : pyGet t.tape t.tape_pointer with
    | none => simp only [hv] at hex; cases hex; rfl
    | some v =>
      simp only [hv] at hex
      by_cases hz : v = 0
      · rw [if_pos hz] at hex
        cases hd : dictLookup t.brackets t.code_pointer with
        | none => simp only [hd] at hex; cases hex; rfl
        | some j => simp only [hd] at hex; cases hex
      · rw [if_neg hz] at hex
        cases hex
  · unfold closeLoop at hex
    cases hv : pyGet t.tape t.tape_pointer with
    | none => simp only [hv] at hex; cases hex; rfl
    | some v =>
      simp only [hv] at hex
      by_cases hz : v = 0
      · rw [if_neg (by simpa using hz)] at hex
        cases hex
      · rw [if_pos (by simpa using hz)] at hex
        cases hd : dictLookup t.brackets t.code_pointer with
        | none => simp only [hd] at hex; cases hex; rfl
        | some j => simp only [hd] at hex; cases hex
  · unfold incrementCell at hex
    cases hv : pyGet t.tape t.tape_pointer with
    | none => simp only [hv] at hex; cases hex; rfl
    | some v =>
      simp only [hv] at hex
      cases hs : pySet t.tape t.tape_pointer (incCellVal v) with
      | none => simp only [hs] at hex; cases hex; rfl
      | some tt => simp only [hs] at hex; cases hex
  · unfold decrementCell at hex
    cases hv : pyGet t.tape t.tape_pointer with
    | none => simp only [hv] at hex; cases hex; rfl
    | some v =>
      simp only [hv] at hex
      cases hs : pySet t.tape t.tape_pointer (decCellVal v) with
      | none => simp only [hs] at hex; cases hex; rfl
      | some tt => simp only [hs] at hex; cases hex
  · unfold acceptInput at hex
    rcases hni : nextInput t.inputs with ⟨_ | n, rest⟩
    · simp only [hni] at hex
      cases hb : back { t with inputs := rest } with
      | error es =>
        obtain ⟨e1, t1⟩ := es
        simp only [hb] at hex
        cases hex
        exact congrArg List.length (back_err_elim hb).1
      | ok sp =>
        obtain ⟨t1, q⟩ := sp
        simp only [hb] at hex
        cases hex
        exact (back_ok_len hb).1
    · simp only [hni] at hex
      cases hs : pySet t.tape t.tape_pointer (n % 256) with
      | none => simp only [hs] at hex; cases hex; rfl
      | some tt => simp only [hs] at hex; cases hex
  · unfold addOutput at hex
    cases hv : pyGet t.tape t.tape_pointer with
    | none => simp only [hv] at hex; cases hex; rfl
    | some v => simp only [hv] at hex; cases hex
  · cases hex
    rfl

/-- Inversion of a successful `step`: the end-of-code check passed, the
current cell was readable, the scan found a command, and the dispatch on the
history-extended state succeeded; `step` then bumps the instruction count
and returns the scan position. -/
theorem step_ok_inv {s s' : BF} {p : Int} (h : step s = .ok (s', p)) :
    ∃ (v : Nat) (c : Char) (s3 : BF),
      ¬ ((s.code.length : Int) ≤ s.code_pointer + 1) ∧
      pyGet s.tape s.tape_pointer = some v ∧
      scanCmd s.code (s.code_pointer + 1) = .ok (p, c) ∧
      execCommand c
        { s with
          past := dequeAppend s.maxlen
            (s.code_pointer, s.tape_pointer, v, s.output) s.past,
          code_pointer := p } = .ok s3 ∧
      s' = { s3 with instruction_count := s3.instruction_count + 1 } := by
  unfold step at h
  split_ifs at h with hend
  cases hv : pyGet s.tape s.tape_pointer with
  | none => simp only [hv] at h; cases h
  | some v =>
    simp only [hv] at h
    cases hscan : scanCmd s.code (s.code_pointer + 1) with
    | error q => simp only [hscan] at h; cases h
    | ok pc =>
      obtain ⟨cp, c⟩ := pc
      simp only [hscan] at h
      cases hex : execCommand c
          { s with
            past := dequeAppend s.maxlen
              (s.code_pointer, s.tape_pointer, v, s.output) s.past,
            code_pointer := cp } with
      | error es =>
        obtain ⟨e1, t1⟩ := es
        simp only [hex] at h
        cases h
      | ok s3 =>
        simp only [hex, Except.ok.injEq, Prod.mk.injEq] at h
        obtain ⟨hs', hp⟩ := h
        subst hp
        exact ⟨v, c, s3, hend, rfl, rfl, hex, hs'.symm⟩

/-- A failed `step` never changes the tape length. -/
theorem step_err_tape {s s' : BF} {e : StepErr} (h : step s = .error (e, s')) :
    s'.tape.length = s.tape.length := by
  unfold step at h
  split_ifs at h with hend
  · cases h
    rfl
  · cases hv : pyGet s.tape s.tape_pointer with
    | none => simp only [hv] at h; cases h; rfl
    | some v =>
      simp only [hv] at h
      cases hscan : scanCmd s.code (s.code_pointer + 1) with
      | error q => simp only [hscan] at h; cases h; rfl
      | ok pc =>
        obtain ⟨cp, c⟩ := pc
        simp only [hscan] at h
        cases hex : execCommand c
            { s with
              past := dequeAppend s.maxlen
                (s.code_pointer, s.tape_pointer, v, s.output) s.past,
              code_pointer := cp } with
        | error es =>
          obtain ⟨e1, t1⟩ := es
          simp only [hex] at h
          cases h
          have h2 := exec_err_tape hex
          simpa using h2
        | ok s3 => simp only [hex] at h; cases h

/-- Evaluation of `back` on a state whose history head is known and whose
tape write succeeds. -/
theorem back_eval {s : BF} {c t : Int} {v : Nat} {o : List Nat}
    {r : List (Int × Int × Nat × List Nat)} {u : List Nat}
    (hp : s.past = (c, t, v, o) :: r)
    (hset : pySet s.tape t v = some u) :
    back s = .ok ({ s with
      code_pointer := c, tape_pointer := t,
      output := o, past := r, tape := u,
      instruction_count := s.instruction_count - 1 }, c) := by
  unfold back
  simp only [hp, hset]

/-- Amended round-trip: a successful `step` followed by `back` restores the
instruction pointer, tape pointer, output and instruction count exactly, and
restores every pre-existing tape cell — but a cell appended by `>` stays. -/
theorem step_back_round_trip (s s' : BF) (p : Int)
    (hm : 1 ≤ s.maxlen) (hstep : step s = .ok (s', p)) :
    ∃ s'', back s' = .ok (s'', s.code_pointer) ∧
      s''.code_pointer = s.code_pointer ∧
      s''.tape_pointer = s.tape_pointer ∧
      s''.output = s.output ∧
      s''.instruction_count = s.instruction_count ∧
      (s''.tape = s.tape ∨ s''.tape = s.tape ++ [0]) := by
  obtain ⟨v, c, s3, hend, hv, hscan, hex, hs'⟩ := step_ok_inv hstep
  obtain ⟨hpast, hmax, hcount, hcode, hbr, u, hset, hu⟩ :=
    exec_ok_master (t :=
      { s with
        past := dequeAppend s.maxlen
          (s.code_pointer, s.tape_pointer, v, s.output) s.past,
        code_pointer := p }) hv hex
  have hpast2 : s3.past = dequeAppend s.maxlen
      (s.code_pointer, s.tape_pointer, v, s.output) s.past := hpast
  rw [dequeAppend_cons hm] at hpast2
  have hcount2 : s3.instruction_count = s.instruction_count := hcount
  have hset2 : pySet s3.tape s.tape_pointer v = some u := hset
  have hp' : s'.past = (s.code_pointer, s.tape_pointer, v, s.output) ::
      s.past.take (s.maxlen - 1) := by
    rw [hs']
    exact hpast2
  have hsetS : pySet s'.tape s.tape_pointer v = some u := by
    rw [hs']
    exact hset2
  have hb := back_eval hp' hsetS
  refine ⟨_, hb, rfl, rfl, rfl, ?_, ?_⟩
  · show s'.instruction_count - 1 = s.instruction_count
    rw [hs']
    show s3.instruction_count + 1 - 1 = s.instruction_count
    omega
  · exact hu

/-- Tape growth discipline of the engine: a successful `step` appends one
zero cell exactly when it executed `>` with the tape pointer one short of
the length, a successful `back` never changes the tape length, and a failed
`step` never changes the tape length. -/
theorem exec_cells_lt {c : Char} {t t' : BF} {v : Nat}
    (hv : pyGet t.tape t.tape_pointer = some v)
    (hex : execCommand c t = .ok t')
    (hT : ∀ x ∈ t.tape, x < 256) : ∀ x ∈ t'.tape, x < 256 := by
  unfold execCommand at hex
  split_ifs at hex
  · rcases openLoop_ok_shape hv hex with ⟨rfl, _⟩ | ⟨j, _, rfl, _⟩ <;> exact hT
  · rcases closeLoop_ok_shape hv hex with ⟨rfl, _⟩ | ⟨j, _, rfl, _⟩ <;> exact hT
  · cases hex
    simp only [incrementPointer]
    by_cases hgrow : (t.tape.length : Int) ≤ t.tape_pointer + 1
    · rw [if_pos hgrow]
      intro x hx
      have hx' : x ∈ t.tape ++ [0] := hx
      rcases List.mem_append.mp hx' with hmem | hmem
      · exact hT x hmem
      · have : x = 0 := by simpa using hmem
        omega
    · rw [if_neg hgrow]
      exact hT
  · cases hex
    exact hT
  · obtain ⟨v', j, hv', hidx, hget, rfl⟩ := incrementCell_ok_shape hex
    intro x hx
    have hx' : x ∈ t.tape.set j (incCellVal v') := hx
    rcases List.mem_or_eq_of_mem_set hx' with hmem | rfl
    · exact hT x hmem
    · show (v' + 1) % 256 < 256
      omega
  · obtain ⟨v', j, hv', hidx, hget, rfl⟩ := decrementCell_ok_shape hex
    intro x hx
    have hx' : x ∈ t.tape.set j (decCellVal v') := hx
    rcases List.mem_or_eq_of_mem_set hx' with hmem | rfl
    · exact hT x hmem
    · show (((v' : Int) - 1) % 256).toNat < 256
      omega
  · obtain ⟨n, rest, j, hni, hidx, rfl⟩ := acceptInput_ok_shape hex
    intro x hx
    have hx' : x ∈ t.tape.set j (n % 256) := hx
    rcases List.mem_or_eq_of_mem_set hx' with hmem | rfl
    · exact hT x hmem
    · omega
  · obtain ⟨v', hv', rfl⟩ := addOutput_ok_shape hex
    exact hT

/-- A successful `step` preserves the all-cells-are-bytes invariant. -/
theorem step_cells {s s' : BF} {p : Int} (hstep : step s = .ok (s', p))
    (hc : cellsOk s) : cellsOk s' := by
  obtain ⟨v, c, s3, hend, hv, hscan, hex, hs'⟩ := step_ok_inv hstep
  obtain ⟨hpast, _, _, _, _, _, _, _⟩ :=
    exec_ok_master (t :=
      { s with
        past := dequeAppend s.maxlen
          (s.code_pointer, s.tape_pointer, v, s.output) s.past,
        code_pointer := p }) hv hex
  constructor
  · intro x hx
    refine exec_cells_lt (t :=
      { s with
        past := dequeAppend s.maxlen
          (s.code_pointer, s.tape_pointer, v, s.output) s.past,
        code_pointer := p }) hv hex hc.1 x ?_
    rw [hs'] at hx
    exact hx
  · intro e he
    rw [hs'] at he
    have he2 : e ∈ s3.past := he
    rw [hpast] at he2
    have he3 : e ∈ dequeAppend s.maxlen
        (s.code_pointer, s.tape_pointer, v, s.output) s.past := he2
    rcases mem_dequeAppend he3 with rfl | hmem
    · exact hc.1 v (pyGet_mem hv)
    · exact hc.2 e hmem

/-- A successful `back` preserves the all-cells-are-bytes invariant. -/
theorem back_cells {s s' : BF} {p : Int} (hb : back s = .ok (s', p))
    (hc : cellsOk s) : cellsOk s' := by
  obtain ⟨cp, tp, v, out, rest, j, hp, _, hidx, rfl⟩ := back_ok_elim hb
  constructor
  · intro x hx
    have hx' : x ∈ s.tape.set j v := hx
    rcases List.mem_or_eq_of_mem_set hx' with hmem | rfl
    · exact hc.1 x hmem
    · exact hc.2 (cp, tp, x, out) (by rw [hp]; exact List.mem_cons_self _ _)
  · intro e he
    have he' : e ∈ rest := he
    exact hc.2 e (by rw [hp]; exact List.mem_cons_of_mem _ he')

/-- A successful `step` grows the history by one entry up to the capacity
and keeps the history invariant. -/
theorem step_hist {s s' : BF} {p : Int} (hstep : step s = .ok (s', p))
    (hinv : histInv s) :
    histInv s' ∧ s'.maxlen = s.maxlen ∧
    s'.past.length = min (s.past.length + 1) s.maxlen := by
  obtain ⟨v, c, s3, hend, hv, hscan, hex, hs'⟩ := step_ok_inv hstep
  obtain ⟨hpast, hmax, _, _, _, u, hset, hu⟩ :=
    exec_ok_master (t :=
      { s with
        past := dequeAppend s.maxlen
          (s.code_pointer, s.tape_pointer, v, s.output) s.past,
        code_pointer := p }) hv hex
  have hlen : s.tape.length ≤ s3.tape.length := by
    rcases exec_ok_tape (t :=
        { s with
          past := dequeAppend s.maxlen
            (s.code_pointer, s.tape_pointer, v, s.output) s.past,
          code_pointer := p }) hv hex with ⟨h1, _⟩ | ⟨h1, _, _⟩
    · have h1' : s3.tape.length = s.tape.length := h1
      omega
    · have h1' : s3.tape = s.tape ++ [0] := h1
      rw [h1']
      simp
  have hpast2 : s'.past = dequeAppend s.maxlen
      (s.code_pointer, s.tape_pointer, v, s.output) s.past := by
    rw [hs']
    exact hpast
  have hmax2 : s'.maxlen = s.maxlen := by
    rw [hs']
    exact hmax
  have hlen2 : s'.tape.length = s3.tape.length := by rw [hs']
  refine ⟨⟨?_, ?_⟩, hmax2, ?_⟩
  · intro e he
    rw [hpast2] at he
    rcases mem_dequeAppend he with rfl | hmem
    · have h0 : (pyIdx s.tape.length s.tape_pointer).isSome := by
        obtain ⟨j, hidx, _, _⟩ := pyGet_some_elim hv
        rw [hidx]
        rfl
      rw [hlen2]
      exact pyIdx_isSome_mono hlen h0
    · rw [hlen2]
      exact pyIdx_isSome_mono hlen (hinv.1 e hmem)
  · rw [hpast2, dequeAppend_length, hmax2]
    omega
  · rw [hpast2, dequeAppend_length]

/-- Iterating: after `n` successful steps from a state satisfying the
history invariant, the history holds `min (initial + n) capacity` entries. -/
theorem stepN_hist {n : Nat} : ∀ {s s' : BF}, stepN n s = .ok s' → histInv s →
    histInv s' ∧ s'.maxlen = s.maxlen ∧
    s'.past.length = min (s.past.length + n) s.maxlen := by
  induction n with
  | zero =>
    intro s s' h hinv
    cases h
    exact ⟨hinv, rfl, by have := hinv.2; omega⟩
  | succ n ih =>
    intro s s' h hinv
    unfold stepN at h
    cases hst : step s with
    | error es => simp only [hst] at h; cases h
    | ok pr =>
      obtain ⟨s1, p⟩ := pr
      simp only [hst] at h
      obtain ⟨hinv1, hmax1, hlen1⟩ := step_hist hst hinv
      obtain ⟨hinv2, hmax2, hlen2⟩ := ih h hinv1
      refine ⟨hinv2, hmax2.trans hmax1, ?_⟩
      rw [hlen2, hlen1, hmax1]
      omega

/-- As long as the history is non-empty (and its entries point into the
tape, which the engine maintains), `back` keeps succeeding. -/
theorem backN_ok {k : Nat} : ∀ {s : BF}, histInv s → k ≤ s.past.length →
    ∃ s', backN k s = .ok s' ∧ s'.past.length = s.past.length - k ∧
      histInv s' := by
  induction k with
  | zero =>
    intro s hinv _
    exact ⟨s, rfl, by omega, hinv⟩
  | succ k ih =>
    intro s hinv hk
    cases hp : s.past with
    | nil =>
      rw [hp] at hk
      simp at hk
    | cons e rest =>
      obtain ⟨cp, tp, v, out⟩ := e
      have hsome : (pyIdx s.tape.length tp).isSome :=
        hinv.1 (cp, tp, v, out) (by rw [hp]; exact List.mem_cons_self _ _)
      obtain ⟨j, hidx⟩ := Option.isSome_iff_exists.mp hsome
      have hb : back s = .ok ({ s with
          code_pointer := cp, tape_pointer := tp,
          output := out, past := rest, tape := s.tape.set j v,
          instruction_count := s.instruction_count - 1 }, cp) :=
        back_eval hp (pySet_eq hidx v)
      have hinv1 : histInv { s with
          code_pointer := cp, tape_pointer := tp,
          output := out, past := rest, tape := s.tape.set j v,
          instruction_count := s.instruction_count - 1 } := by
        constructor
        · intro e2 he2
          have he2' : e2 ∈ rest := he2
          have h2 := hinv.1 e2 (by rw [hp]; exact List.mem_cons_of_mem _ he2')
          show (pyIdx (s.tape.set j v).length e2.2.1).isSome
          rw [List.length_set]
          exact h2
        · have h2 := hinv.2
          rw [hp] at h2
          show rest.length ≤ s.maxlen
          simp at h2
          omega
      have hrest : k ≤ rest.length := by
        rw [hp] at hk
        simpa using hk
      obtain ⟨s', hbN, hlen, hinv'⟩ := ih hinv1 hrest
      refine ⟨s', ?_, ?_, hinv'⟩
      · show backN (k + 1) s = .ok s'
        unfold backN
        simp only [hb]
        exact hbN
      · have hlen' : s'.past.length = rest.length - k := hlen
        simp only [List.length_cons]
        omega

/-- C6 engine-level statement: more successful steps than the capacity fill
the history to exactly `maxlen` entries; `back` then succeeds exactly
`maxlen` times and the next `back` fails with `NoPreviousExecution`,
returning the state untouched. -/
theorem history_bound (code : List Char) (inputs : List (Option Nat))
    (maxlen n : Nat) (s0 s : BF)
    (hinit : init code inputs maxlen = .ok s0)
    (hn : maxlen < n) (hrun : stepN n s0 = .ok s) :
    ∃ s', backN maxlen s = .ok s' ∧
      back s' = .error (.noPreviousExecution, s') := by
  unfold init at hinit
  cases hmb : matchBrackets code with
  | error e => simp only [hmb] at hinit; cases hinit
  | ok b =>
    simp only [hmb] at hinit
    cases hinit
    have hinv0 : histInv {
        code := code, brackets := b, tape := [0],
        tape_pointer := 0, code_pointer := -1, output := [],
        instruction_count := 0, past := [], maxlen := maxlen,
        inputs := inputs } := by
      constructor
      · intro e he
        simp at he
      · simp
    obtain ⟨hinv, hmax, hlen⟩ := stepN_hist hrun hinv0
    have hlen2 : s.past.length = maxlen := by
      have h2 : s.past.length = min (0 + n) maxlen := hlen
      omega
    have hmax2 : s.maxlen = maxlen := hmax
    obtain ⟨s', hbN, hlen', hinv'⟩ := backN_ok (k := maxlen) hinv (by omega)
    have hempty : s'.past = [] := List.length_eq_zero.mp (by omega)
    refine ⟨s', hbN, ?_⟩
    unfold back
    simp only [hempty]

/-! Soundness of the jump table of the validator, and the position it reports
for unmatched open brackets. -/

theorem getOpt_of_code_eq {code pre rest : List Char} {c : Char}
    (hcode : code = pre ++ c :: rest) : code[pre.length]? = some c := by
  rw [hcode]
  exact getElemOpt_append_cons pre c rest

theorem matchBracketsAux_sound (code : List Char) :
    ∀ (rest pre : List Char) (stack : List Nat) (acc b : List (Int × Int)),
      code = pre ++ rest →
      (∀ m ∈ stack, code[m]? = some '[' ∧ m < pre.length) →
      (∀ e ∈ acc, entryOk code e) →
      matchBracketsAux rest pre.length stack acc = .ok b →
      ∀ e ∈ b, entryOk code e := by
  intro rest
  induction rest with
  | nil =>
    intro pre stack acc b hcode hstack hacc h
    unfold matchBracketsAux at h
    cases stack with
    | nil =>
      cases h
      exact hacc
    | cons top stack' => cases h
  | cons ch rest ih =>
    intro pre stack acc b hcode hstack hacc h
    unfold matchBracketsAux at h
    by_cases h1 : ch = '['
    · rw [if_pos h1] at h
      subst h1
      refine ih (pre ++ ['[']) (pre.length :: stack) acc b ?_ ?_ hacc ?_
      · rw [hcode]
        simp
      · intro m hm
        rcases List.mem_cons.mp hm with rfl | hm'
        · exact ⟨getOpt_of_code_eq hcode, by simp⟩
        · obtain ⟨hg, hlt⟩ := hstack m hm'
          refine ⟨hg, ?_⟩
          simp only [List.length_append, List.length_cons, List.length_nil]
          omega
      · simpa using h
    · rw [if_neg h1] at h
      by_cases h2 : ch = ']'
      · rw [if_pos h2] at h
        subst h2
        cases stack with
        | nil => cases h
        | cons m stack' =>
          obtain ⟨hgm, hltm⟩ := hstack m (List.mem_cons_self _ _)
          refine ih (pre ++ [']']) stack'
            (acc ++ [((m : Int), (pre.length : Int)),
                     ((pre.length : Int), (m : Int))]) b ?_ ?_ ?_ ?_
          · rw [hcode]
            simp
          · intro m2 hm2
            obtain ⟨hg2, hlt2⟩ := hstack m2 (List.mem_cons_of_mem _ hm2)
            refine ⟨hg2, ?_⟩
            simp only [List.length_append, List.length_cons, List.length_nil]
            omega
          · intro e he
            have hci : code[pre.length]? = some ']' := getOpt_of_code_eq hcode
            rcases List.mem_append.mp he with he' | he'
            · exact hacc e he'
            · rcases List.mem_cons.mp he' with rfl | he''
              · exact ⟨m, pre.length, rfl, rfl, Or.inl ⟨hgm, hci, hltm⟩⟩
              · rcases List.mem_cons.mp he'' with rfl | he3
                · exact ⟨pre.length, m, rfl, rfl, Or.inr ⟨hci, hgm, hltm⟩⟩
                · simp at he3
          · simpa using h
      · rw [if_neg h2] at h
        refine ih (pre ++ [ch]) stack acc b ?_ ?_ hacc ?_
        · rw [hcode]
          simp
        · intro m hm
          obtain ⟨hg, hlt⟩ := hstack m hm
          refine ⟨hg, ?_⟩
          simp only [List.length_append, List.length_cons, List.length_nil]
          omega
        · simpa using h

theorem matchBrackets_sound {code : List Char} {b : List (Int × Int)}
    (h : matchBrackets code = .ok b) : ∀ e ∈ b, entryOk code e :=
  matchBracketsAux_sound code code [] [] [] b rfl
    (fun m hm => absurd hm (List.not_mem_nil m))
    (fun e he => absurd he (List.not_mem_nil e)) h

theorem dictLookup_mem : ∀ (l : List (Int × Int)) (i j : Int),
    dictLookup l i = some j → (i, j) ∈ l := by
  intro l
  induction l with
  | nil => intro i j h; cases h
  | cons kv rest ih =>
    intro i j h
    obtain ⟨k, w⟩ := kv
    unfold dictLookup at h
    by_cases hk : k = i
    · rw [if_pos hk] at h
      cases h
      subst hk
      exact List.mem_cons_self _ _
    · rw [if_neg hk] at h
      exact List.mem_cons_of_mem _ (ih i j h)

theorem pendingOpens_error :
    ∀ (rest : List Char) (i : Nat) (stack : List Nat)
      (acc : List (Int × Int)) (t : Nat) (s' : List Nat),
      pendingOpens rest i stack = some (t :: s') →
      matchBracketsAux rest i stack acc = .error (.unmatchedOpenParen, t) := by
  intro rest
  induction rest with
  | nil =>
    intro i stack acc t s' h
    unfold pendingOpens at h
    cases h
    rfl
  | cons ch rest ih =>
    intro i stack acc t s' h
    unfold pendingOpens at h
    unfold matchBracketsAux
    by_cases h1 : ch = '['
    · rw [if_pos h1] at h ⊢
      exact ih (i + 1) (i :: stack) acc t s' h
    · rw [if_neg h1] at h ⊢
      by_cases h2 : ch = ']'
      · rw [if_pos h2] at h ⊢
        cases stack with
        | nil => cases h
        | cons m stack' =>
          exact ih (i + 1) stack'
            (acc ++ [((m : Int), (i : Int)), ((i : Int), (m : Int))]) t s' h
      · rw [if_neg h2] at h ⊢
        exact ih (i + 1) stack acc t s' h

theorem pendingOpens_pairwise :
    ∀ (rest : List Char) (i : Nat) (stack st : List Nat),
      (∀ x ∈ stack, x < i) → List.Pairwise (· > ·) stack →
      pendingOpens rest i stack = some st → List.Pairwise (· > ·) st := by
  intro rest
  induction rest with
  | nil =>
    intro i stack st hb hp h
    cases h
    exact hp
  | cons ch rest ih =>
    intro i stack st hb hp h
    unfold pendingOpens at h
    by_cases h1 : ch = '['
    · rw [if_pos h1] at h
      refine ih (i + 1) (i :: stack) st ?_ ?_ h
      · intro x hx
        rcases List.mem_cons.mp hx with rfl | hx'
        · omega
        · have := hb x hx'
          omega
      · exact List.pairwise_cons.mpr ⟨fun x hx => hb x hx, hp⟩
    · rw [if_neg h1] at h
      by_cases h2 : ch = ']'
      · rw [if_pos h2] at h
        cases stack with
        | nil => cases h
        | cons m stack' =>
          refine ih (i + 1) stack' st ?_ (List.pairwise_cons.mp hp).2 h
          intro x hx
          have := hb x (List.mem_cons_of_mem _ hx)
          omega
      · rw [if_neg h2] at h
        refine ih (i + 1) stack st ?_ hp h
        intro x hx
        have := hb x hx
        omega

/-- Evaluation of `step` when the scan for the next command runs off the
end of the program: the history entry stays pushed and the code pointer is
left on the last index visited minus one. -/
theorem step_scan_off_end {s : BF}
    (hcond : ¬ ((s.code.length : Int) ≤ s.code_pointer + 1))
    {v : Nat} (hv : pyGet s.tape s.tape_pointer = some v)
    {q : Int} (hscan : scanCmd s.code (s.code_pointer + 1) = .error q) :
    step s = .error (.executionEnded,
      { s with
        past := dequeAppend s.maxlen
          (s.code_pointer, s.tape_pointer, v, s.output) s.past,
        code_pointer := q - 1 }) := by
  unfold step
  rw [if_neg hcond]
  simp only [hv, hscan]

/-! The claims. -/

/-- C1 (code bug): on `,` with an exhausted input provider, `step()` raises
`NoInputError` after an attempted rollback — but the `back()` call of the rollback
decrements `instruction_count` even though `step` had not yet incremented
it, so the "fully transactional" failed step leaves the count at `-1`
instead of `0`.  Every other observable component is restored. -/
theorem no_input_decrements_count :
    init [','] [] 1000000 = .ok c1s0 ∧
    step c1s0 = .error (.noInput, c1s1) ∧
    c1s1.code_pointer = c1s0.code_pointer ∧
    c1s1.tape_pointer = c1s0.tape_pointer ∧
    c1s1.tape = c1s0.tape ∧
    c1s1.output = c1s0.output ∧
    c1s1.past = c1s0.past ∧
    c1s0.instruction_count = 0 ∧
    c1s1.instruction_count = -1 :=
  ⟨rfl, rfl, rfl, rfl, rfl, rfl, rfl, rfl, rfl⟩

/-- C2 (counterexample): on program `>` a successful `step` followed by
`back` restores pointers, output and count, but the zero cell appended by
`>` is not removed, so the tape (and its length) differ from the pre-step
tape. -/
theorem round_trip_tape_length_cex :
    init ['>'] [] 1000000 = .ok c2s0 ∧
    step c2s0 = .ok (c2s1, 0) ∧
    back c2s1 = .ok (c2s2, -1) ∧
    c2s2.code_pointer = c2s0.code_pointer ∧
    c2s2.tape_pointer = c2s0.tape_pointer ∧
    c2s2.output = c2s0.output ∧
    c2s2.instruction_count = c2s0.instruction_count ∧
    c2s2.tape ≠ c2s0.tape ∧
    c2s2.tape.length ≠ c2s0.tape.length :=
  ⟨rfl, rfl, rfl, rfl, rfl, rfl, rfl, by decide, by decide⟩

/-- C5: for a program accepted by the validator, dispatching `[` with a
nonzero current cell leaves the instruction pointer at the `[` position
(only the normal advance of the next step moves it) and with a zero cell sets
it to exactly the position recorded in the jump table; symmetrically for
`]` with a nonzero cell; and every jump-table entry relates a `[` and its
`]` (the recorded match really is a bracket partner). -/
theorem jump_correct (s s' : BF) (p : Int) (v : Nat)
    (hvalid : matchBrackets s.code = .ok s.brackets)
    (hstep : step s = .ok (s', p))
    (hcell : pyGet s.tape s.tape_pointer = some v) :
    (pyGet s.code p = some '[' →
      (v ≠ 0 → s'.code_pointer = p) ∧
      (v = 0 → dictLookup s.brackets p = some s'.code_pointer)) ∧
    (pyGet s.code p = some ']' →
      (v ≠ 0 → dictLookup s.brackets p = some s'.code_pointer) ∧
      (v = 0 → s'.code_pointer = p)) ∧
    (∀ i j, dictLookup s.brackets i = some j → entryOk s.code (i, j)) := by
  obtain ⟨v0, c, s3, hend, hv, hscan, hex, hs'⟩ := step_ok_inv hstep
  cases hcell.symm.trans hv
  have hsc := scanCmd_ok hscan
  refine ⟨?_, ?_, ?_⟩
  · intro hbr
    have hc : c = '[' := Option.some.inj (hsc.1.symm.trans hbr)
    subst hc
    have hex2 : openLoop
        { s with
          past := dequeAppend s.maxlen
            (s.code_pointer, s.tape_pointer, v, s.output) s.past,
          code_pointer := p } = .ok s3 := by
      unfold execCommand at hex
      rw [if_pos rfl] at hex
      exact hex
    rcases openLoop_ok_shape (s :=
        { s with
          past := dequeAppend s.maxlen
            (s.code_pointer, s.tape_pointer, v, s.output) s.past,
          code_pointer := p }) hv hex2 with ⟨h3, hnz⟩ | ⟨j, hlook, h3, hz⟩
    · refine ⟨fun _ => ?_, fun hz2 => absurd hz2 hnz⟩
      rw [hs', h3]
    · refine ⟨fun hnz => absurd hz hnz, fun _ => ?_⟩
      rw [hs', h3]
      exact hlook
  · intro hbr
    have hc : c = ']' := Option.some.inj (hsc.1.symm.trans hbr)
    subst hc
    have hex2 : closeLoop
        { s with
          past := dequeAppend s.maxlen
            (s.code_pointer, s.tape_pointer, v, s.output) s.past,
          code_pointer := p } = .ok s3 := by
      unfold execCommand at hex
      rw [if_neg (by decide), if_pos rfl] at hex
      exact hex
    rcases closeLoop_ok_shape (s :=
        { s with
          past := dequeAppend s.maxlen
            (s.code_pointer, s.tape_pointer, v, s.output) s.past,
          code_pointer := p }) hv hex2 with ⟨h3, hz⟩ | ⟨j, hlook, h3, hnz⟩
    · refine ⟨fun hnz => absurd hz hnz, fun _ => ?_⟩
      rw [hs', h3]
    · refine ⟨fun _ => ?_, fun hz => absurd hz hnz⟩
      rw [hs', h3]
      exact hlook
  · intro i j hlook
    exact matchBrackets_sound hvalid (i, j) (dictLookup_mem s.brackets i j hlook)

/-- C5 witness on program `[]`: the zero cell makes `[` jump to position 1,
the table recorded match, which really is the matching `]`. -/
theorem jump_correct_witness :
    dictLookup c5s0.brackets 0 = some c5s1.code_pointer ∧
    entryOk c5s0.code (0, 1) := by
  have h := jump_correct c5s0 c5s1 0 0 rfl rfl rfl
  exact ⟨(h.1 rfl).2 rfl, h.2.2 0 1 rfl⟩

/-- C3 (amended): when the validator scan ends with a non-empty stack of
pending `[` positions, it fails with `UnmatchedOpenParen` reporting the
LAST remaining unmatched `[` (the top of the stack, the largest position),
not the first. -/
theorem validator_reports_last_open (code : List Char) (t : Nat) (s' : List Nat)
    (h : pendingOpens code 0 [] = some (t :: s')) :
    matchBrackets code = .error (.unmatchedOpenParen, t) ∧ ∀ x ∈ s', x < t := by
  refine ⟨pendingOpens_error code 0 [] [] t s' h, ?_⟩
  have hp := pendingOpens_pairwise code 0 [] (t :: s')
    (fun x hx => absurd hx (List.not_mem_nil x)) List.Pairwise.nil h
  intro x hx
  exact (List.pairwise_cons.mp hp).1 x hx

/-- C3 (counterexample): on `[[` the validator reports position 1 (the last
unmatched `[`), not position 0 as the claim states. -/
theorem unmatched_open_reports_last_cex :
    matchBrackets ['[', '['] = .error (.unmatchedOpenParen, 1) ∧
    matchBrackets ['[', '['] ≠ .error (.unmatchedOpenParen, 0) := by
  refine ⟨rfl, ?_⟩
  intro hcon
  rw [show matchBrackets ['[', '['] = .error (.unmatchedOpenParen, 1) from rfl]
    at hcon
  simp at hcon

/-- C3 witness on `[[`: both pending positions 0 and 1 remain, and the
reported one, 1, is the largest. -/
theorem validator_reports_last_open_witness :
    matchBrackets ['[', '['] = .error (.unmatchedOpenParen, 1) ∧
    (0 : Nat) < 1 := by
  have h := validator_reports_last_open ['[', '['] 1 [0] rfl
  exact ⟨h.1, h.2 0 (by simp)⟩

/-- C4 (code bug): executing `<` with tape pointer 0 raises no error at all
(there is no `InvalidTapeCell` anywhere in the engine): the step succeeds,
the tape pointer becomes `-1`, and a subsequent cell read silently wraps
to the last cell of the tape via Python negative indexing. -/
theorem decrement_at_zero_no_error :
    init ['<'] [] 1000000 = .ok c4s0 ∧
    c4s0.tape_pointer = 0 ∧
    step c4s0 = .ok (c4s1, 0) ∧
    c4s1.tape_pointer = -1 ∧
    pyGet c4s1.tape c4s1.tape_pointer = some 0 :=
  ⟨rfl, rfl, rfl, rfl, rfl⟩

/-- C2 (amended): a successful `step` followed immediately by `back`
restores the instruction pointer, tape pointer, output and instruction
count exactly, and restores every pre-existing tape cell; the only residue
is that a zero cell appended by `>` stays, so the tape is either exactly
the pre-step tape or the pre-step tape plus one trailing zero cell. -/
theorem step_back_restores (s s' : BF) (p : Int)
    (hm : 1 ≤ s.maxlen) (hstep : step s = .ok (s', p)) :
    ∃ s'', back s' = .ok (s'', s.code_pointer) ∧
      s''.code_pointer = s.code_pointer ∧
      s''.tape_pointer = s.tape_pointer ∧
      s''.output = s.output ∧
      s''.instruction_count = s.instruction_count ∧
      (s''.tape = s.tape ∨ s''.tape = s.tape ++ [0]) :=
  step_back_round_trip s s' p hm hstep

/-- C2 witness on program `+`. -/
theorem step_back_restores_witness :
    ∃ s'', back w2s1 = .ok (s'', w2s0.code_pointer) ∧
      s''.code_pointer = w2s0.code_pointer ∧
      s''.tape_pointer = w2s0.tape_pointer ∧
      s''.output = w2s0.output ∧
      s''.instruction_count = w2s0.instruction_count ∧
      (s''.tape = w2s0.tape ∨ s''.tape = w2s0.tape ++ [0]) :=
  step_back_restores w2s0 w2s1 0 (by decide) rfl

/-- C6: more successful `step()` calls than the history capacity leave
exactly `maxlen` history entries (oldest evicted silently); `back()` then
succeeds exactly `maxlen` times and the next `back()` fails with
`NoPreviousExecution`, returning the state unchanged. -/
theorem history_bound_claim (code : List Char) (inputs : List (Option Nat))
    (maxlen n : Nat) (s0 s : BF)
    (hinit : init code inputs maxlen = .ok s0)
    (hn : maxlen < n) (hrun : stepN n s0 = .ok s) :
    ∃ s', backN maxlen s = .ok s' ∧
      back s' = .error (.noPreviousExecution, s') :=
  history_bound code inputs maxlen n s0 s hinit hn hrun

/-- C6 witness: program `+++` with capacity 2 and 3 executed steps. -/
theorem history_bound_claim_witness :
    ∃ s', backN 2 c6s3 = .ok s' ∧
      back s' = .error (.noPreviousExecution, s') :=
  history_bound_claim ['+', '+', '+'] [] 2 3 c6s0 c6s3 rfl (by decide) rfl

/-- C7: a successful `step` appends exactly one zero cell precisely when it
executed `>` with the tape pointer one short of the tape length, and keeps
the tape length unchanged otherwise; a successful `back` and every failed
`step` also keep the tape length unchanged — the tape never shrinks. -/
theorem tape_growth (s : BF) :
    (∀ s' p, step s = .ok (s', p) →
      (s'.tape.length = s.tape.length ∧
        ¬ (pyGet s.code p = some '>' ∧
           s.tape_pointer + 1 = (s.tape.length : Int))) ∨
      (s'.tape = s.tape ++ [0] ∧ pyGet s.code p = some '>' ∧
        s.tape_pointer + 1 = (s.tape.length : Int))) ∧
    (∀ s' p, back s = .ok (s', p) → s'.tape.length = s.tape.length) ∧
    (∀ e s', step s = .error (e, s') → s'.tape.length = s.tape.length) := by
  refine ⟨?_, ?_, ?_⟩
  · intro s' p hstep
    obtain ⟨v, c, s3, hend, hv, hscan, hex, hs'⟩ := step_ok_inv hstep
    have hsc := scanCmd_ok hscan
    rcases exec_ok_tape (t :=
        { s with
          past := dequeAppend s.maxlen
            (s.code_pointer, s.tape_pointer, v, s.output) s.past,
          code_pointer := p }) hv hex with ⟨hlen, hnot⟩ | ⟨htape, hcgt, heq⟩
    · left
      constructor
      · rw [hs']
        exact hlen
      · intro hcon
        apply hnot
        have hcc : c = '>' := Option.some.inj (hsc.1.symm.trans hcon.1)
        exact ⟨hcc, hcon.2⟩
    · right
      refine ⟨?_, ?_, heq⟩
      · rw [hs']
        exact htape
      · exact hcgt ▸ hsc.1
  · intro s' p hb
    exact (back_ok_len hb).1
  · intro e s' herr
    exact step_err_tape herr

/-- C7 witness on program `>`: the first step appends one zero cell, the
following `back` keeps the length, and a failed step keeps the length. -/
theorem tape_growth_witness :
    ((c7s1.tape.length = c7s0.tape.length ∧
      ¬ (pyGet c7s0.code 0 = some '>' ∧
         c7s0.tape_pointer + 1 = (c7s0.tape.length : Int))) ∨
     (c7s1.tape = c7s0.tape ++ [0] ∧ pyGet c7s0.code 0 = some '>' ∧
       c7s0.tape_pointer + 1 = (c7s0.tape.length : Int))) ∧
    c7s2.tape.length = c7s1.tape.length ∧
    c7s1.tape.length = c7s1.tape.length :=
  ⟨(tape_growth c7s0).1 c7s1 0 rfl, (tape_growth c7s1).2.1 c7s2 (-1) rfl,
   (tape_growth c7s1).2.2 .executionEnded c7s1 rfl⟩

/-- C8: the cell update functions of `increment_cell`/`decrement_cell`
compute `(v + 1) % 256` and `(v - 1) % 256` (so 255 wraps to 0 and 0 wraps
to 255), their results always lie in `0..255`, and both `step` and `back`
preserve the invariant that every tape cell and every saved history cell
value is a byte. -/
theorem cell_wraparound :
    (∀ v : Nat, v < 256 → incCellVal v = (v + 1) % 256 ∧
      decCellVal v = (v + 255) % 256) ∧
    incCellVal 255 = 0 ∧ decCellVal 0 = 255 ∧
    (∀ v : Nat, incCellVal v < 256 ∧ decCellVal v < 256) ∧
    (∀ s s' : BF, ∀ p : Int, cellsOk s → step s = .ok (s', p) → cellsOk s') ∧
    (∀ s s' : BF, ∀ p : Int, cellsOk s → back s = .ok (s', p) → cellsOk s') := by
  refine ⟨?_, by decide, by decide, ?_, ?_, ?_⟩
  · intro v hv
    constructor
    · rfl
    · simp only [decCellVal]
      omega
  · intro v
    constructor
    · simp only [incCellVal]
      omega
    · simp only [decCellVal]
      omega
  · intro s s' p hc hstep
    exact step_cells hstep hc
  · intro s s' p hc hb
    exact back_cells hb hc

/-- C8 witness: wraparound at the boundaries and byte-invariant
preservation across a concrete `step` and `back` on program `+`. -/
theorem cell_wraparound_witness :
    incCellVal 255 = (255 + 1) % 256 ∧ decCellVal 255 = (255 + 255) % 256 ∧
    incCellVal 7 < 256 ∧ decCellVal 7 < 256 ∧
    cellsOk c8s1 ∧ cellsOk c8s0 := by
  have h := cell_wraparound
  have hc0 : cellsOk c8s0 := by
    constructor
    · intro x hx
      simp only [c8s0] at hx
      simp at hx
      omega
    · intro e he
      simp only [c8s0] at he
      simp at he
  have hc1 : cellsOk c8s1 := h.2.2.2.2.1 c8s0 c8s1 0 hc0 rfl
  exact ⟨(h.1 255 (by decide)).1, (h.1 255 (by decide)).2,
    (h.2.2.2.1 7).1, (h.2.2.2.1 7).2, hc1,
    h.2.2.2.2.2 c8s1 c8s0 (-1) hc1 rfl⟩

/-- C9: when the instruction pointer is at or past the last index of the
program, `step()` fails with `ExecutionEnded` and the returned state is the
input state itself — nothing is pushed or mutated. -/
theorem execution_ended_unchanged (s : BF)
    (h : (s.code.length : Int) ≤ s.code_pointer + 1) :
    step s = .error (.executionEnded, s) := by
  unfold step
  rw [if_pos h]

/-- C9 witness: a state sitting on the last index of `+`. -/
theorem execution_ended_unchanged_witness :
    step c9s = .error (.executionEnded, c9s) :=
  execution_ended_unchanged c9s (by decide)

/-- C10: on a fresh interpreter whose whole program is non-command
characters, `step()` fails with `ExecutionEnded` but the history entry it
pushed before scanning stays, so a subsequent `back()` succeeds (instead of
failing with `NoPreviousExecution`) and drives `instruction_count` to `-1`
although no instruction was ever executed. -/
theorem comment_scan_back (code : List Char) (inputs : List (Option Nat))
    (maxlen : Nat) (s0 : BF)
    (hne : code ≠ []) (hcmd : ∀ c ∈ code, isCommand c = false)
    (hm : 1 ≤ maxlen) (hinit : init code inputs maxlen = .ok s0) :
    ∃ s1 s2 : BF, step s0 = .error (.executionEnded, s1) ∧
      s1.past = [(-1, 0, 0, [])] ∧
      back s1 = .ok (s2, -1) ∧ s2.instruction_count = -1 ∧ s2.past = [] := by
  unfold init at hinit
  cases hmb : matchBrackets code with
  | error e => simp only [hmb] at hinit; cases hinit
  | ok b =>
    simp only [hmb] at hinit
    cases hinit
    have hlen1 : 1 ≤ code.length := by
      cases code with
      | nil => exact absurd rfl hne
      | cons a l => simp
    have hscan : scanCmd code ((-1 : Int) + 1) = .error (code.length : Int) := by
      rw [show ((-1 : Int) + 1) = 0 by omega]
      exact scanCmd_all_comment hcmd
    have hpast1 : dequeAppend maxlen
        ((-1 : Int), (0 : Int), (0 : Nat), ([] : List Nat)) [] =
        [(-1, 0, 0, [])] := by
      rw [dequeAppend_cons hm]
      simp
    have hstep := step_scan_off_end (s :=
      { code := code, brackets := b, tape := [0], tape_pointer := 0,
        code_pointer := -1, output := [], instruction_count := 0,
        past := [], maxlen := maxlen, inputs := inputs })
      (by show ¬ ((code.length : Int) ≤ -1 + 1); omega)
      (v := 0) rfl hscan
    rw [show dequeAppend maxlen
        (((-1 : Int), (0 : Int), (0 : Nat), ([] : List Nat)) :
          Int × Int × Nat × List Nat) [] = [(-1, 0, 0, [])] from hpast1]
      at hstep
    have hb : back
        {
          code := code, brackets := b, tape := [0], tape_pointer := 0,
          code_pointer := (code.length : Int) - 1, output := [],
          instruction_count := 0, past := [(-1, 0, 0, [])],
          maxlen := maxlen, inputs := inputs } =
        .ok ({
          code := code, brackets := b, tape := [0], tape_pointer := 0,
          code_pointer := -1, output := [], instruction_count := -1,
          past := [], maxlen := maxlen, inputs := inputs }, -1) := by
      have h2 := back_eval (s :=
        {
          code := code, brackets := b, tape := [0], tape_pointer := 0,
          code_pointer := (code.length : Int) - 1, output := [],
          instruction_count := 0, past := [(-1, 0, 0, [])],
          maxlen := maxlen, inputs := inputs })
        (c := -1) (t := 0) (v := 0) (o := []) (r := []) (u := [0])
        rfl rfl
      exact h2
    exact ⟨_, _, hstep, rfl, hb, rfl, rfl⟩

/-- C10 witness: the comment-only program `ab` with capacity 1. -/
theorem comment_scan_back_witness :
    ∃ s1 s2 : BF, step c10s0 = .error (.executionEnded, s1) ∧
      s1.past = [(-1, 0, 0, [])] ∧
      back s1 = .ok (s2, -1) ∧ s2.instruction_count = -1 ∧ s2.past = [] :=
  comment_scan_back ['a', 'b'] [] 1 c10s0 (by decide) (by decide) (by decide)
    rfl

end BFI
